import Mathlib

/-!
Verification of the core pipeline of the pig-farming RAG chatbot.

The Python sources are embedded shallowly: strings become `List Char` (for the
text-processing pipeline) or `String` (for prompt assembly), Python dicts become
association lists, and the stateful ingestion loop becomes a pure function that
also returns the trace of store-write events.
-/

set_option maxHeartbeats 1000000
set_option maxRecDepth 100000

namespace PigRag

/-! ### Python string primitives -/

/-- The set of characters Python's `str.strip()` removes (Python's notion of
whitespace: `str.isspace`). -/
def pyIsSpace (c : Char) : Bool :=
  decide ((0x09 ≤ c.toNat ∧ c.toNat ≤ 0x0D) ∨ (0x1C ≤ c.toNat ∧ c.toNat ≤ 0x1F) ∨
    c.toNat = 0x20 ∨ c.toNat = 0x85 ∨ c.toNat = 0xA0 ∨ c.toNat = 0x1680 ∨
    (0x2000 ≤ c.toNat ∧ c.toNat ≤ 0x200A) ∨ c.toNat = 0x2028 ∨ c.toNat = 0x2029 ∨
    c.toNat = 0x202F ∨ c.toNat = 0x205F ∨ c.toNat = 0x3000)

/-- Python `content.strip()`: drop whitespace from both ends. -/
def pyStrip (l : List Char) : List Char :=
  ((l.dropWhile pyIsSpace).reverse.dropWhile pyIsSpace).reverse

/-! ### src/pipeline/text_processor.py — validate_document_quality -/

/-- Embeds `sum(1 for c in content if '가' <= c <= '힣')`
(count of Hangul-syllable characters U+AC00..U+D7A3). -/
def koreanChars (l : List Char) : Nat :=
  l.countP (fun c => decide (0xAC00 ≤ c.toNat ∧ c.toNat ≤ 0xD7A3))

/-- Embeds `len(content.replace(" ", "").replace("\n", ""))`: the count of
characters other than a space U+0020 and a line feed U+000A. -/
def totalChars (l : List Char) : Nat :=
  l.countP (fun c => decide (c ≠ ' ' ∧ c ≠ '\n'))

/-- Embeds `validate_document_quality` (src/pipeline/text_processor.py, lines 89-114).
The Python float comparison `korean_chars / total_chars < 0.3` is modelled by the
exact rational comparison `10 * korean < 3 * total` (for the denominators a
document can have, IEEE double division followed by comparison with the double
literal `0.3` agrees with the exact rational comparison). -/
def validate_document_quality (content : List Char) : Bool :=
  if (pyStrip content).length < 100 then false
  else
    let korean := koreanChars content
    let total := totalChars content
    if 0 < total then
      if 10 * korean < 3 * total then false else true
    else true

/-- Modelled from the spec: the claim's denominator for the quality-filter ratio,
"total non-whitespace characters".  Used only to compare the spec's wording with
`totalChars`, the denominator the code actually computes. -/
def specTotalChars (l : List Char) : Nat :=
  l.countP (fun c => !pyIsSpace c)

/-- The concrete input refuting claim C3: 30 Hangul syllables, one tab, 70 Latin
letters.  The tab is whitespace (so the spec's denominator is 100 and the
spec-side ratio is exactly 0.30) but it is neither a space nor a newline, so the
code's denominator is 101 and the code rejects. -/
def tabDocument : List Char :=
  List.replicate 30 '가' ++ '\t' :: List.replicate 70 'a'

/-! ### src/pipeline/text_processor.py — the text splitter and process_document

`get_text_splitter` configures a third-party `RecursiveCharacterTextSplitter`
(langchain) whose source is not part of this repository.  The splitter is
therefore modelled from the spec (§4.1): recursively split on a prioritized
separator list with a character-level fallback, merge adjacent fragments
greedily up to the target size, and prepend `overlap` characters of trailing
context from the previous chunk to the next chunk. -/

/-- Find the first occurrence of the (non-empty) separator `sep` in `l`; return
the part up to and including the separator, and the rest. -/
def findSep (sep : List Char) : List Char → Option (List Char × List Char)
  | [] => none
  | c :: rest =>
    if sep ≠ [] ∧ sep.isPrefixOf (c :: rest) then
      some (sep, (c :: rest).drop sep.length)
    else
      match findSep sep rest with
      | none => none
      | some (pre, post) => some (c :: pre, post)

/-- Modelled from the spec: split `l` at every occurrence of `sep`, keeping the
separator attached to the preceding fragment (fuelled recursion; the fuel
`l.length` always suffices). -/
def splitKeepAux (sep : List Char) : Nat → List Char → List (List Char)
  | 0, l => [l]
  | fuel + 1, l =>
    match findSep sep l with
    | none => [l]
    | some (pre, post) => pre :: splitKeepAux sep fuel post

/-- Modelled from the spec: split at a single separator, keeping separators. -/
def splitKeep (sep : List Char) (l : List Char) : List (List Char) :=
  splitKeepAux sep l.length l

/-- Cut a list into consecutive pieces of length `bs` (fuelled; the fuel
`l.length` suffices whenever `0 < bs`). -/
def toBatchesAux (bs : Nat) : Nat → List α → List (List α)
  | _, [] => []
  | 0, l => [l]
  | fuel + 1, l => l.take bs :: toBatchesAux bs fuel (l.drop bs)

/-- Cut a list into consecutive pieces of length `bs`.  Embeds the Python
pattern `for i in range(0, len(xs), bs): xs[i:i+bs]`. -/
def toBatches (bs : Nat) (l : List α) : List (List α) :=
  toBatchesAux bs l.length l

/-- Modelled from the spec: recursively split `text` on the prioritized
separator list `seps`; a piece that already fits within `chunkSize` is kept
whole; when the separators are exhausted the character-level fallback (the
final `""` separator of the source list) cuts at `chunkSize` boundaries. -/
def fragments (chunkSize : Nat) : List (List Char) → List Char → List (List Char)
  | [], text =>
    if text.length ≤ chunkSize then [text] else toBatches chunkSize text
  | s :: rest, text =>
    if text.length ≤ chunkSize then [text]
    else (splitKeep s text).flatMap (fragments chunkSize rest)

/-- Modelled from the spec: greedily merge a run of fragments, starting from the
accumulated fragment `acc`, so that each produced chunk stays within
`chunkSize` when possible. -/
def mergeGo (chunkSize : Nat) (acc : List Char) : List (List Char) → List (List Char)
  | [] => [acc]
  | f :: fs =>
    if acc.length + f.length ≤ chunkSize then mergeGo chunkSize (acc ++ f) fs
    else acc :: mergeGo chunkSize f fs

/-- Modelled from the spec: greedy merging of adjacent fragments. -/
def mergeGreedy (chunkSize : Nat) : List (List Char) → List (List Char)
  | [] => []
  | f :: fs => mergeGo chunkSize f fs

/-- The last `ov` characters of `l` (all of `l` when it is shorter). -/
def endOverlap (ov : Nat) (l : List Char) : List Char :=
  l.drop (l.length - ov)

/-- Modelled from the spec: prepend to each chunk the trailing `ov` characters
of the previously produced chunk. -/
def addOverlapGo (ov : Nat) (prevChunk : List Char) : List (List Char) → List (List Char)
  | [] => []
  | c :: cs =>
    (endOverlap ov prevChunk ++ c) :: addOverlapGo ov (endOverlap ov prevChunk ++ c) cs

/-- Modelled from the spec: overlap insertion over the whole chunk sequence (the
first chunk gets no overlap prefix). -/
def addOverlap (ov : Nat) : List (List Char) → List (List Char)
  | [] => []
  | c :: cs => c :: addOverlapGo ov c cs

/-- The separator list configured in `get_text_splitter`
(src/pipeline/text_processor.py, lines 18-28): paragraph break, line break,
ideographic full stop, English sentence terminators, space.  The final `""`
(character-level fallback) of the source list is realised by the base case of
`fragments`. -/
def koreanSeparators : List (List Char) :=
  [['\n', '\n'], ['\n'], ['。'], ['.', ' '], ['!', ' '], ['?', ' '], [' ']]

/-- Modelled from the spec: `splitter.split_text` of the configured splitter —
recursive separator splitting, greedy merging, then overlap insertion. -/
def split_text (chunkSize overlap : Nat) (text : List Char) : List (List Char) :=
  addOverlap overlap (mergeGreedy chunkSize (fragments chunkSize koreanSeparators text))

/-- Values stored in a chunk's metadata dict. -/
inductive MetaVal where
  | nat (n : Nat)
  | str (s : List Char)
deriving DecidableEq

/-- Python `{**m, k: v}` / in-place `dict` update for a dict whose keys are
unique (the invariant every dict built by this program satisfies): replace the
value at `k` in place, or append the new pair at the end. -/
def dictSet {V : Type} : List (String × V) → String → V → List (String × V)
  | [], k, v => [(k, v)]
  | p :: t, k, v => if p.1 = k then (k, v) :: t else p :: dictSet t k v

/-- A chunked LangChain document as built by `process_document`. -/
structure ChunkDoc where
  page_content : List Char
  metadata : List (String × MetaVal)
deriving DecidableEq

/-- Embeds `process_document` (src/pipeline/text_processor.py, lines 41-86):
strip the content, return no chunks when the result is empty, otherwise split
and wrap each chunk with positional metadata (`chunk_index`, `total_chunks`,
`chunk_size`). -/
def process_document (chunkSize overlap : Nat) (content : List Char)
    (md : List (String × MetaVal)) : List ChunkDoc :=
  let stripped := pyStrip content
  if stripped = [] then []
  else
    let chunks := split_text chunkSize overlap stripped
    chunks.enum.map fun p =>
      { page_content := p.2
        metadata :=
          dictSet (dictSet (dictSet md "chunk_index" (.nat p.1))
            "total_chunks" (.nat chunks.length)) "chunk_size" (.nat p.2.length) }

/-! ### src/pipeline/ingestion.py — ingest_documents

The vector store's `add_documents` is an external call; its behaviour for one
ingestion run is abstracted by `failures : Nat → Nat`: the write of batch `i`
fails exactly `failures i` times and then succeeds.  The model returns, besides
the outcome (`Except.error ()` for a propagated exception), the ordered trace
of write attempts, so that temporal claims about the store can be stated. -/

/-- One `vectorstore.add_documents` call: the index of the batch written and
whether the call succeeded. -/
structure WriteEv where
  batch : Nat
  ok : Bool
deriving DecidableEq

/-- Embeds the `while True` retry loop of `ingest_documents`
(src/pipeline/ingestion.py, lines 45-59) for a write that fails `f` more times
and then succeeds, starting at attempt number `attempt` (the source starts at
1).  Returns the outcome together with the success flags of the attempted
writes, in order.  The source raises when `max_retries != -1 and
attempt >= max_retries`. -/
def attemptLoop (maxRetries : Int) : Nat → Nat → Except Unit Unit × List Bool
  | 0, _ => (Except.ok (), [true])
  | f + 1, attempt =>
    if maxRetries ≠ -1 ∧ maxRetries ≤ (attempt : Int) then (Except.error (), [false])
    else
      let r := attemptLoop maxRetries f (attempt + 1)
      (r.1, false :: r.2)

/-- Embeds the batch loop of `ingest_documents`: process batches in order,
accumulate `total_ingested` by the batch length on success, and propagate the
exception (attempting no further batch) when a batch's retries are exhausted.
`idx` is the index of the first batch of `bs` in the whole input. -/
def runBatches {α : Type} (maxRetries : Int) (failures : Nat → Nat) :
    Nat → List (List α) → Except Unit Nat × List WriteEv
  | _, [] => (Except.ok 0, [])
  | idx, b :: bs =>
    match attemptLoop maxRetries (failures idx) 1 with
    | (Except.error _, evs) => (Except.error (), evs.map fun s => ⟨idx, s⟩)
    | (Except.ok _, evs) =>
      match runBatches maxRetries failures (idx + 1) bs with
      | (Except.ok n, evs2) => (Except.ok (b.length + n), (evs.map fun s => ⟨idx, s⟩) ++ evs2)
      | (Except.error _, evs2) => (Except.error (), (evs.map fun s => ⟨idx, s⟩) ++ evs2)

/-- The observable result of one `ingest_documents` call. -/
structure IngestRun where
  outcome : Except Unit Nat
  events : List WriteEv
  gotStoreHandle : Bool

/-- Embeds `ingest_documents` (src/pipeline/ingestion.py, lines 13-67).
`vectorstoreGiven` is whether the caller passed a vectorstore (otherwise the
code calls `get_vectorstore()`, recorded by `gotStoreHandle`); the empty-input
check precedes that call.  The outer `try/except` re-raises unchanged, so it
does not appear in the model. -/
def ingest_documents {α : Type} (documents : List α) (vectorstoreGiven : Bool)
    (batchSize : Nat) (maxRetries : Int) (failures : Nat → Nat) : IngestRun :=
  if documents.isEmpty then ⟨Except.ok 0, [], false⟩
  else
    let r := runBatches maxRetries failures 0 (toBatches batchSize documents)
    ⟨r.1, r.2, !vectorstoreGiven⟩

/-- The indices of the batches durably written (successful store writes), in
trace order. -/
def successIdxs (evs : List WriteEv) : List Nat :=
  evs.filterMap fun e => if e.ok then some e.batch else none

/-! ### src/rag/chain.py — retrieval, score attachment, prompt assembly

Scores are floats attached opaquely; they are modelled by an arbitrary type
`V`.  A document returned by the vector store is a `PyDoc V`: its metadata dict
is `Option`al (`none` embeds Python `None`). -/

/-- A LangChain document as seen by the chains. -/
structure PyDoc (V : Type) where
  page_content : String
  metadata : Option (List (String × V))

/-- One item of the list returned by `similarity_search_with_score`: either a
well-formed `(Document, score)` 2-tuple, or anything else (a non-tuple or a
tuple of another length), which the source logs and skips. -/
inductive RetItem (V : Type) where
  | pair (doc : PyDoc V) (score : V)
  | malformed

/-- Embeds the score-attachment step shared verbatim by `get_qa_chain.retrieve`
(src/rag/chain.py, lines 83-90) and `get_conversational_chain.retrieve`
(lines 161-168): `if doc.metadata is None: doc.metadata = {}` followed by
`doc.metadata = {**doc.metadata, "score": score}`. -/
def attachScore {V : Type} (doc : PyDoc V) (score : V) : PyDoc V :=
  { doc with metadata := some (dictSet (doc.metadata.getD []) "score" score) }

/-- Embeds the result loop of both `retrieve` closures (src/rag/chain.py,
lines 69-94 and 147-172): well-formed pairs get their score attached, malformed
items are skipped (`continue`) individually. -/
def chainRetrieve {V : Type} (results : List (RetItem V)) : List (PyDoc V) :=
  results.filterMap fun item =>
    match item with
    | .pair d s => some (attachScore d s)
    | .malformed => none

/-- Embeds `QA_PROMPT_TEMPLATE` (src/rag/chain.py, lines 15-25) rendered by
`PromptTemplate.format` at the given `context` and `question`. -/
def qaPromptTemplate (context question : String) : String :=
  "다음은 한국 양돈 산업 관련 참고 자료입니다:\n\n" ++ context ++
    "\n\n질문: " ++ question ++
    "\n\n위 참고 자료를 바탕으로 전문적이고 구체적인 답변을 작성해주세요.\n가능한 경우 출처를 명시하고, 최신 정보를 우선적으로 활용하세요.\n확실하지 않은 내용은 추측하지 말고 \"참고 자료에서 관련 정보를 찾을 수 없습니다\"라고 답변해주세요.\n\n답변:"

/-- Python `a or b` for optional strings (`None` and `""` are falsy). -/
def pyOrStr (a b : Option String) : Option String :=
  match a with
  | some s => if s = "" then b else some s
  | none => b

/-- Python `a or b` where `a` is an optional list (`None` and `[]` are falsy)
and `b` is already a list. -/
def pyOrList (a : Option (List String)) (b : List String) : List String :=
  match a with
  | some l => if l = [] then b else l
  | none => b

/-- Embeds `f"{question}\n\n이전 대화: " + " | ".join(history)`, the
history-augmented retrieval query built identically at src/rag/chain.py
lines 101 and 179. -/
def augmentedQuery (question : String) (history : List String) : String :=
  question ++ ("\n\n이전 대화: " ++ String.intercalate " | " history)

/-- Embeds `retrieval_query = question if not history else ...` (identical at
src/rag/chain.py lines 101 and 179). -/
def retrievalQueryOf (question : String) (history : List String) : String :=
  if history = [] then question else augmentedQuery question history

/-- The input mapping passed to a chain's `invoke` (absent keys are `none`). -/
structure ChainInputs where
  query : Option String
  question : Option String
  chat_history : Option (List String)

/-- Embeds `"\n\n".join(doc.page_content for doc in docs)`. -/
def contextOf {V : Type} (docs : List (PyDoc V)) : String :=
  String.intercalate "\n\n" (docs.map PyDoc.page_content)

/-- What one `get_qa_chain(...).invoke(inputs)` call computes. -/
structure QAOutput (V : Type) where
  retrievalQuery : String
  prompt : String
  result : String
  source_documents : List (PyDoc V)

/-- Embeds `get_qa_chain(...).invoke` (src/rag/chain.py, lines 98-113).  The
vector store is the function `search` (query string to raw result list) and the
language model is `llm` (rendered prompt to answer text).  When both `query`
and `question` resolve to a falsy value the Python code goes on to search with
`None`, which the remote store rejects; that degenerate call is outside the
model and returns `none`. -/
def qaInvoke {V : Type} (search : String → List (RetItem V)) (llm : String → String)
    (return_source_documents : Bool) (inputs : ChainInputs) : Option (QAOutput V) :=
  match pyOrStr inputs.query inputs.question with
  | none => none
  | some question =>
    let history := pyOrList inputs.chat_history []
    let rq := retrievalQueryOf question history
    let docs := chainRetrieve (search rq)
    let prompt := qaPromptTemplate (contextOf docs) question
    some { retrievalQuery := rq
           prompt := prompt
           result := llm prompt
           source_documents := if return_source_documents then docs else [] }

/-- A chat message; the conversational chain builds only `human` (user-role)
messages (`HumanMessage`). -/
inductive ChatMsg where
  | human (content : String)
  | ai (content : String)
deriving DecidableEq

/-- What one `get_conversational_chain(...).invoke(inputs)` call computes. -/
structure ConvOutput (V : Type) where
  retrievalQuery : String
  llmMessages : List ChatMsg
  answer : String
  source_documents : List (PyDoc V)

/-- Embeds `get_conversational_chain(...).invoke` (src/rag/chain.py,
lines 176-195).  Note the resolution order `question or query` (the QA chain
uses `query or question`) and the history fallback
`chat_history or memory or []`.  The model invokes `llm` on the built message
sequence and records that sequence in `llmMessages`. -/
def convInvoke {V : Type} (search : String → List (RetItem V))
    (llm : List ChatMsg → String) (memory : Option (List String))
    (inputs : ChainInputs) : Option (ConvOutput V) :=
  match pyOrStr inputs.question inputs.query with
  | none => none
  | some question =>
    let history := pyOrList inputs.chat_history (pyOrList memory [])
    let rq := retrievalQueryOf question history
    let docs := chainRetrieve (search rq)
    let formatted := qaPromptTemplate (contextOf docs) question
    let messages := history.map ChatMsg.human ++ [ChatMsg.human formatted]
    some { retrievalQuery := rq
           llmMessages := messages
           answer := llm messages
           source_documents := docs }

/-- Concrete inputs used to exercise the QA chain: a query `"q"` with one prior
turn of chat history. -/
def qaWitnessInputs : ChainInputs := ⟨some "q", none, some ["t1"]⟩

/-- The concrete output of the QA chain on `qaWitnessInputs` with an empty
store and a constant language model. -/
def qaWitnessOut : QAOutput Nat :=
  (qaInvoke (fun _ => []) (fun _ => "ans") true qaWitnessInputs).getD ⟨"", "", "", []⟩

/-- Concrete inputs used to exercise the conversational chain: a question `"q"`
with two prior turns. -/
def convWitnessInputs : ChainInputs := ⟨none, some "q", some ["t1", "t2"]⟩

/-- The concrete output of the conversational chain on `convWitnessInputs` with
an empty store and a constant language model. -/
def convWitnessOut : ConvOutput Nat :=
  (convInvoke (fun _ => []) (fun _ => "ans") none convWitnessInputs).getD ⟨"", [], "", []⟩

/-! ### Helper lemmas -/

theorem lookup_dictSet_self {V : Type} (k : String) (v : V) :
    ∀ m : List (String × V), (dictSet m k v).lookup k = some v := by
  intro m
  induction m with
  | nil => simp [dictSet, List.lookup]
  | cons p t ih =>
    by_cases h : p.1 = k
    · simp [dictSet, h, List.lookup]
    · have hk : (k == p.1) = false := by
        simp only [beq_eq_false_iff_ne]
        exact fun e => h e.symm
      simp [dictSet, h, List.lookup, hk, ih]

theorem lookup_dictSet_ne {V : Type} (k' k : String) (v : V) (hk : k' ≠ k) :
    ∀ m : List (String × V), (dictSet m k v).lookup k' = m.lookup k' := by
  have hkk : (k' == k) = false := by simp only [beq_eq_false_iff_ne]; exact hk
  intro m
  induction m with
  | nil => simp [dictSet, List.lookup, hkk]
  | cons p t ih =>
    by_cases h : p.1 = k
    · subst h
      simp [dictSet, List.lookup, hkk]
    · simp [dictSet, h, List.lookup, ih]

theorem chainRetrieve_nil {V : Type} : chainRetrieve ([] : List (RetItem V)) = [] := rfl

theorem chainRetrieve_cons_pair {V : Type} (d : PyDoc V) (s : V) (l : List (RetItem V)) :
    chainRetrieve (RetItem.pair d s :: l) = attachScore d s :: chainRetrieve l := rfl

theorem chainRetrieve_cons_malformed {V : Type} (l : List (RetItem V)) :
    chainRetrieve (RetItem.malformed :: l) = chainRetrieve l := rfl

theorem chainRetrieve_append {V : Type} (l1 l2 : List (RetItem V)) :
    chainRetrieve (l1 ++ l2) = chainRetrieve l1 ++ chainRetrieve l2 :=
  List.filterMap_append l1 l2 _

theorem mem_of_mem_dropWhile (p : Char → Bool) (l : List Char) (c : Char)
    (hc : c ∈ l.dropWhile p) : c ∈ l :=
  (List.dropWhile_sublist p).subset hc

theorem exists_not_of_dropWhile_ne_nil (p : Char → Bool) :
    ∀ l : List Char, l.dropWhile p ≠ [] → ∃ c ∈ l, p c = false := by
  intro l
  induction l with
  | nil => simp [List.dropWhile]
  | cons a t ih =>
    intro h
    by_cases ha : p a
    · rw [List.dropWhile_cons, if_pos ha] at h
      obtain ⟨c, hc, hpc⟩ := ih h
      exact ⟨c, List.mem_cons_of_mem a hc, hpc⟩
    · exact ⟨a, List.mem_cons_self a t, by simpa using ha⟩

theorem exists_not_space_of_pyStrip_ne_nil (l : List Char) (h : pyStrip l ≠ []) :
    ∃ c ∈ l, pyIsSpace c = false := by
  unfold pyStrip at h
  rw [Ne, List.reverse_eq_nil_iff] at h
  obtain ⟨c, hc, hpc⟩ := exists_not_of_dropWhile_ne_nil pyIsSpace _ h
  rw [List.mem_reverse] at hc
  exact ⟨c, mem_of_mem_dropWhile pyIsSpace l c hc, hpc⟩

theorem totalChars_pos_of_pyStrip_ne_nil (l : List Char) (h : pyStrip l ≠ []) :
    0 < totalChars l := by
  obtain ⟨c, hc, hpc⟩ := exists_not_space_of_pyStrip_ne_nil l h
  rw [totalChars, List.countP_pos_iff]
  refine ⟨c, hc, ?_⟩
  have h1 : c ≠ ' ' := by rintro rfl; revert hpc; decide
  have h2 : c ≠ '\n' := by rintro rfl; revert hpc; decide
  simp [h1, h2]

/-! ### Claim theorems -/

/-- C10: whenever the stripped length of the content is at least 100 (rule (a)
of `validate_document_quality` passes), the denominator of the Korean-ratio
check is strictly positive, so the division is never by zero and the
`total_chars == 0` acceptance branch is unreachable. -/
theorem total_chars_pos_of_min_length (content : List Char)
    (h : 100 ≤ (pyStrip content).length) : 0 < totalChars content := by
  refine totalChars_pos_of_pyStrip_ne_nil content ?_
  intro he
  rw [he] at h
  simp at h

theorem total_chars_pos_of_min_length_witness :
    100 ≤ (pyStrip (List.replicate 100 'a')).length ∧
      0 < totalChars (List.replicate 100 'a') :=
  ⟨by decide, total_chars_pos_of_min_length _ (by decide)⟩

/-- C3 counterexample: on `tabDocument` (stripped length 101, 30 Hangul
characters out of 100 non-whitespace characters — spec-side ratio exactly
0.30), the claim as stated demands acceptance, but the code rejects: the tab is
whitespace yet is kept in the code's denominator (only spaces and newlines are
removed), giving 30/101 < 0.30. -/
theorem validate_quality_counterexample :
    validate_document_quality tabDocument = false ∧
    100 ≤ (pyStrip tabDocument).length ∧
    3 * specTotalChars tabDocument ≤ 10 * koreanChars tabDocument := by decide

/-- C3 as amended: `validate_document_quality content` is true iff the stripped
length is at least 100 and the ratio of Hangul-syllable characters to the
characters other than space and newline (the denominator the code computes) is
at least 0.30. -/
theorem validate_quality_iff (content : List Char) :
    validate_document_quality content = true ↔
      100 ≤ (pyStrip content).length ∧
        3 * totalChars content ≤ 10 * koreanChars content := by
  unfold validate_document_quality
  by_cases h1 : (pyStrip content).length < 100
  · simp only [if_pos h1]
    constructor
    · intro h; exact absurd h (by simp)
    · intro h; omega
  · simp only [if_neg h1]
    by_cases h2 : 0 < totalChars content
    · by_cases h3 : 10 * koreanChars content < 3 * totalChars content
      · simp only [if_pos h2, if_pos h3]
        constructor
        · intro h; exact absurd h (by simp)
        · intro h; omega
      · simp only [if_pos h2, if_neg h3]
        constructor
        · intro _; omega
        · intro _; trivial
    · simp only [if_neg h2]
      constructor
      · intro _; omega
      · intro _; trivial

/-- C6: ingesting the empty document list returns a count of 0, issues no store
write, and does not even obtain a store handle (`get_vectorstore` is not
called). -/
theorem ingest_empty_spec {α : Type} (vectorstoreGiven : Bool) (batchSize : Nat)
    (maxRetries : Int) (failures : Nat → Nat) :
    ingest_documents ([] : List α) vectorstoreGiven batchSize maxRetries failures =
      ⟨Except.ok 0, [], false⟩ := rfl

/-- C5: every well-formed `(document, score)` pair in the store's result list
yields, at its position, a document whose metadata holds the score under the
reserved key `"score"` (overwriting whatever was stored there), while a
malformed item is skipped individually without aborting the rest of the
retrieval. -/
theorem retrieve_score_attach_spec {V : Type} (pre post : List (RetItem V))
    (d : PyDoc V) (s : V) :
    chainRetrieve (pre ++ RetItem.pair d s :: post) =
      chainRetrieve pre ++ attachScore d s :: chainRetrieve post ∧
    ((attachScore d s).metadata.getD []).lookup "score" = some s ∧
    chainRetrieve (pre ++ RetItem.malformed :: post) = chainRetrieve (pre ++ post) := by
  refine ⟨?_, ?_, ?_⟩
  · rw [chainRetrieve_append, chainRetrieve_cons_pair]
  · simp [attachScore, lookup_dictSet_self]
  · rw [chainRetrieve_append, chainRetrieve_cons_malformed, chainRetrieve_append]

/-- C9: attaching a score builds a fresh metadata mapping from the prior one:
every key other than `"score"` keeps its prior value, and `"score"` holds the
new score; the prior mapping itself is not modified (the model is pure, so the
first conjunct is exactly the observable content of that guarantee). -/
theorem attach_score_preserves_metadata {V : Type} (d : PyDoc V) (s : V) (k : String)
    (hk : k ≠ "score") :
    ((attachScore d s).metadata.getD []).lookup k = (d.metadata.getD []).lookup k ∧
    ((attachScore d s).metadata.getD []).lookup "score" = some s := by
  constructor
  · simp [attachScore, lookup_dictSet_ne k "score" s hk]
  · simp [attachScore, lookup_dictSet_self]

theorem attach_score_preserves_metadata_witness :
    ("title" : String) ≠ "score" ∧
    (((attachScore (PyDoc.mk "t" (some [("title", (0 : Nat))])) 1).metadata.getD []).lookup
        "title" =
      ((PyDoc.mk "t" (some [("title", (0 : Nat))])).metadata.getD []).lookup "title" ∧
      ((attachScore (PyDoc.mk "t" (some [("title", (0 : Nat))])) 1).metadata.getD []).lookup
        "score" = some 1) :=
  ⟨by decide, attach_score_preserves_metadata _ _ _ (by decide)⟩

/-! ### Ingestion lemmas -/

theorem attemptLoop_ok (M : Int) :
    ∀ (f a : Nat), (M = -1 ∨ f = 0 ∨ (a : Int) + f ≤ M) →
      attemptLoop M f a = (Except.ok (), List.replicate f false ++ [true]) := by
  intro f
  induction f with
  | zero => intro a _; rfl
  | succ f ih =>
    intro a h
    have hcond : ¬(M ≠ -1 ∧ M ≤ (a : Int)) := by
      rcases h with h | h | h
      · simp [h]
      · exact absurd h (Nat.succ_ne_zero f)
      · rintro ⟨_, h2⟩
        push_cast at h
        omega
    have h' : M = -1 ∨ f = 0 ∨ ((a + 1 : Nat) : Int) + f ≤ M := by
      rcases h with h | h | h
      · exact Or.inl h
      · exact absurd h (Nat.succ_ne_zero f)
      · right; right
        push_cast at h ⊢
        omega
    rw [attemptLoop, if_neg hcond, ih (a + 1) h']
    simp [List.replicate_succ]

theorem attemptLoop_err (M : Int) :
    ∀ (f a : Nat), M ≠ -1 → 1 ≤ f → M ≤ (a : Int) + f - 1 →
      (attemptLoop M f a).1 = Except.error () ∧
        ∀ b ∈ (attemptLoop M f a).2, b = false := by
  intro f
  induction f with
  | zero => intro a _ h _; omega
  | succ f ih =>
    intro a hM hf hle
    by_cases hc : M ≤ (a : Int)
    · rw [attemptLoop, if_pos ⟨hM, hc⟩]
      exact ⟨rfl, by simp⟩
    · have hf' : 1 ≤ f := by
        rcases Nat.eq_zero_or_pos f with h0 | h0
        · subst h0
          push_cast at hle
          omega
        · exact h0
      have hrec := ih (a + 1) hM hf' (by push_cast at hle ⊢; omega)
      rw [attemptLoop, if_neg (by rintro ⟨_, h⟩; exact hc h)]
      refine ⟨hrec.1, ?_⟩
      intro b hb
      simp only [List.mem_cons] at hb
      rcases hb with rfl | hb
      · rfl
      · exact hrec.2 b hb

theorem flatten_toBatchesAux {α : Type u} (bs : Nat) :
    ∀ (fuel : Nat) (l : List α), (toBatchesAux bs fuel l).flatten = l := by
  intro fuel
  induction fuel with
  | zero => intro l; cases l <;> simp [toBatchesAux]
  | succ fuel ih =>
    intro l
    cases l with
    | nil => simp [toBatchesAux]
    | cons x t =>
      simp only [toBatchesAux, List.flatten_cons, ih]
      exact List.take_append_drop bs (x :: t)

theorem flatten_toBatches {α : Type u} (bs : Nat) (l : List α) :
    (toBatches bs l).flatten = l :=
  flatten_toBatchesAux bs l.length l

theorem toBatchesAux_nil {α : Type u} (bs : Nat) :
    ∀ fuel, toBatchesAux bs fuel ([] : List α) = [] := by
  intro fuel
  cases fuel <;> rfl

theorem toBatches_singleton {α : Type} (bs : Nat) (l : List α) (hne : l ≠ [])
    (hlen : l.length ≤ bs) : toBatches bs l = [l] := by
  cases l with
  | nil => exact absurd rfl hne
  | cons x t =>
    have h1 : toBatchesAux bs (t.length + 1) (x :: t)
        = (x :: t).take bs :: toBatchesAux bs t.length ((x :: t).drop bs) := rfl
    show toBatchesAux bs (t.length + 1) (x :: t) = [x :: t]
    rw [h1, List.take_of_length_le hlen, List.drop_eq_nil_of_le hlen, toBatchesAux_nil]

theorem successIdxs_append (l1 l2 : List WriteEv) :
    successIdxs (l1 ++ l2) = successIdxs l1 ++ successIdxs l2 :=
  List.filterMap_append l1 l2 _

theorem successIdxs_all_false (i : Nat) (bl : List Bool) (hb : ∀ b ∈ bl, b = false) :
    successIdxs (bl.map fun s => ⟨i, s⟩) = [] := by
  induction bl with
  | nil => rfl
  | cons b t ih =>
    have hbf : b = false := hb b (List.mem_cons_self b t)
    subst hbf
    simp only [List.map_cons, successIdxs, List.filterMap_cons]
    exact ih fun x hx => hb x (List.mem_cons_of_mem _ hx)

theorem successIdxs_replicate_true (i : Nat) (f : Nat) :
    successIdxs ((List.replicate f false ++ [true]).map fun s => ⟨i, s⟩) = [i] := by
  induction f with
  | zero => rfl
  | succ f ih =>
    simp only [List.replicate_succ, List.cons_append, List.map_cons]
    simp only [successIdxs, List.filterMap_cons] at ih ⊢
    exact ih

theorem attemptLoop_all_false (M : Int) :
    ∀ (f a : Nat), (attemptLoop M f a).1 = Except.error () →
      ∀ b ∈ (attemptLoop M f a).2, b = false := by
  intro f
  induction f with
  | zero =>
    intro a h
    exact absurd h (by simp [attemptLoop])
  | succ f ih =>
    intro a h b hb
    rw [attemptLoop] at h hb
    by_cases hc : M ≠ -1 ∧ M ≤ (a : Int)
    · rw [if_pos hc] at hb
      simpa using hb
    · rw [if_neg hc] at h hb
      simp only [List.mem_cons] at hb
      rcases hb with rfl | hb
      · rfl
      · exact ih (a + 1) h b hb

theorem attemptLoop_trace_of_ok (M : Int) :
    ∀ (f a : Nat), (attemptLoop M f a).1 = Except.ok () →
      (attemptLoop M f a).2 = List.replicate f false ++ [true] := by
  intro f
  induction f with
  | zero => intro a _; rfl
  | succ f ih =>
    intro a h
    rw [attemptLoop] at h ⊢
    by_cases hc : M ≠ -1 ∧ M ≤ (a : Int)
    · rw [if_pos hc] at h
      exact absurd h (by simp)
    · rw [if_neg hc] at h ⊢
      rw [List.replicate_succ, List.cons_append]
      exact congrArg (false :: ·) (ih (a + 1) h)

/-- The full behaviour of the batch loop: some prefix of `m` batches is written
successfully (one success event each, in input order), every event belongs to a
batch index at most `idx + m`, the trace is ordered by batch index, an error
outcome means the loop stopped before the end, and a success outcome means all
batches were written and the returned count is the total length. -/
theorem runBatches_spec {α : Type} (M : Int) (f : Nat → Nat) :
    ∀ (bs : List (List α)) (idx : Nat),
      ∃ m, m ≤ bs.length ∧
        successIdxs (runBatches M f idx bs).2 = (List.range m).map (idx + ·) ∧
        (∀ e ∈ (runBatches M f idx bs).2, idx ≤ e.batch ∧ e.batch ≤ idx + m) ∧
        List.Pairwise (· ≤ ·) ((runBatches M f idx bs).2.map WriteEv.batch) ∧
        ((runBatches M f idx bs).1 = Except.error () → m < bs.length) ∧
        (∀ n, (runBatches M f idx bs).1 = Except.ok n →
          m = bs.length ∧ n = bs.flatten.length) := by
  intro bs
  induction bs with
  | nil =>
    intro idx
    refine ⟨0, by simp, rfl, by simp [runBatches], by simp [runBatches], ?_, ?_⟩
    · intro h; exact absurd h (by simp [runBatches])
    · intro n h
      simp only [runBatches, Except.ok.injEq] at h
      simp [← h]
  | cons b rest ih =>
    intro idx
    rcases hA : attemptLoop M (f idx) 1 with ⟨ares, aevs⟩
    cases ares with
    | error e =>
      cases e
      have hallf : ∀ x ∈ aevs, x = false := by
        have h := attemptLoop_all_false M (f idx) 1
        rw [hA] at h
        exact fun x hx => h rfl x hx
      have hbatch : ∀ x ∈ (aevs.map fun s => (⟨idx, s⟩ : WriteEv)).map WriteEv.batch,
          x = idx := by
        intro x hx
        simp only [List.map_map, List.mem_map] at hx
        obtain ⟨s, _, rfl⟩ := hx
        rfl
      refine ⟨0, by simp, ?_, ?_, ?_, ?_, ?_⟩
      · simp only [runBatches, hA]
        exact successIdxs_all_false idx aevs hallf
      · simp only [runBatches, hA]
        intro e he
        simp only [List.mem_map] at he
        obtain ⟨s, _, rfl⟩ := he
        simp
      · simp only [runBatches, hA]
        exact List.pairwise_of_forall_mem_list fun x hx y hy => by
          rw [hbatch x hx, hbatch y hy]
      · intro _; simp
      · intro n hn
        simp only [runBatches, hA] at hn
        exact absurd hn (by simp)
    | ok u =>
      cases u
      have haevs : aevs = List.replicate (f idx) false ++ [true] := by
        have h := attemptLoop_trace_of_ok M (f idx) 1
        rw [hA] at h
        exact h rfl
      have hatag : successIdxs (aevs.map fun s => (⟨idx, s⟩ : WriteEv)) = [idx] := by
        rw [haevs]
        exact successIdxs_replicate_true idx (f idx)
      have hbatch : ∀ x ∈ (aevs.map fun s => (⟨idx, s⟩ : WriteEv)).map WriteEv.batch,
          x = idx := by
        intro x hx
        simp only [List.map_map, List.mem_map] at hx
        obtain ⟨s, _, rfl⟩ := hx
        rfl
      obtain ⟨m, hm, hsucc, hbound, hpair, herr, hok⟩ := ih (idx + 1)
      rcases hR : runBatches M f (idx + 1) rest with ⟨rres, revs⟩
      rw [hR] at hsucc hbound hpair herr hok
      have hsuccIdx : successIdxs ((aevs.map fun s => (⟨idx, s⟩ : WriteEv)) ++ revs) =
          (List.range (m + 1)).map (idx + ·) := by
        rw [successIdxs_append, hatag, hsucc, List.range_succ_eq_map, List.map_cons,
          List.map_map, List.singleton_append]
        simp only [Nat.add_zero]
        refine congrArg (idx :: ·) (List.map_congr_left ?_)
        intro x _
        simp only [Function.comp_apply]
        omega
      have hboundAll : ∀ e ∈ (aevs.map fun s => (⟨idx, s⟩ : WriteEv)) ++ revs,
          idx ≤ e.batch ∧ e.batch ≤ idx + (m + 1) := by
        intro e he
        rcases List.mem_append.1 he with he | he
        · simp only [List.mem_map] at he
          obtain ⟨s, _, rfl⟩ := he
          simp
        · have := hbound e he
          omega
      have hpairAll : List.Pairwise (· ≤ ·)
          (((aevs.map fun s => (⟨idx, s⟩ : WriteEv)) ++ revs).map WriteEv.batch) := by
        rw [List.map_append, List.pairwise_append]
        refine ⟨List.pairwise_of_forall_mem_list fun x hx y hy => by
          rw [hbatch x hx, hbatch y hy], hpair, ?_⟩
        intro x hx y hy
        rw [hbatch x hx]
        simp only [List.mem_map] at hy
        obtain ⟨e, he, rfl⟩ := hy
        exact Nat.le_trans (Nat.le_succ idx) (hbound e he).1
      cases rres with
      | error e2 =>
        cases e2
        refine ⟨m + 1, by simp; omega, ?_, ?_, ?_, ?_, ?_⟩
        · simp only [runBatches, hA, hR]
          exact hsuccIdx
        · simp only [runBatches, hA, hR]
          exact hboundAll
        · simp only [runBatches, hA, hR]
          exact hpairAll
        · intro _
          have := herr rfl
          simp only [List.length_cons]
          omega
        · intro n hn
          simp only [runBatches, hA, hR] at hn
          exact absurd hn (by simp)
      | ok n =>
        have hrest := hok n rfl
        refine ⟨m + 1, by simp; omega, ?_, ?_, ?_, ?_, ?_⟩
        · simp only [runBatches, hA, hR]
          exact hsuccIdx
        · simp only [runBatches, hA, hR]
          exact hboundAll
        · simp only [runBatches, hA, hR]
          exact hpairAll
        · intro h
          simp only [runBatches, hA, hR] at h
          exact absurd h (by simp)
        · intro n2 hn2
          simp only [runBatches, hA, hR, Except.ok.injEq] at hn2
          constructor
          · simp only [List.length_cons]
            omega
          · rw [← hn2, List.flatten_cons, List.length_append, hrest.2]

/-- C1 as amended: for a single batch whose store write fails exactly `N` times
and then succeeds, ingestion succeeds (returning the full batch count, with the
batch written exactly once) iff the retry ceiling is unlimited (`-1`), the
write never fails (`N = 0`), or the ceiling strictly exceeds `N`; when the
ceiling is at most `N` (and not `-1`, with at least one failure) the code
raises on the failing attempt numbered `max_retries`, the exception propagates,
and no partial success is reported for the batch (no count is returned, no
successful write occurs).  The original claim's boundary `ceiling ≥ N` is off
by one: `max_retries = N` fails because the source raises as soon as
`attempt >= max_retries` on a failing attempt. -/
theorem ingest_retry_boundary {α : Type} (d : List α) (vsGiven : Bool) (bs : Nat)
    (M : Int) (N : Nat) (hne : d ≠ []) (hbs : d.length ≤ bs) :
    ((M = -1 ∨ N = 0 ∨ (N : Int) < M) →
      (ingest_documents d vsGiven bs M fun _ => N).outcome = Except.ok d.length ∧
      successIdxs (ingest_documents d vsGiven bs M fun _ => N).events = [0]) ∧
    ((M ≠ -1 ∧ 1 ≤ N ∧ M ≤ (N : Int)) →
      (ingest_documents d vsGiven bs M fun _ => N).outcome = Except.error () ∧
      successIdxs (ingest_documents d vsGiven bs M fun _ => N).events = []) := by
  have hie : d.isEmpty = false := by
    cases d with
    | nil => exact absurd rfl hne
    | cons x t => rfl
  have htb : toBatches bs d = [d] := toBatches_singleton bs d hne hbs
  constructor
  · intro hsucc
    have hal : attemptLoop M N 1 = (Except.ok (), List.replicate N false ++ [true]) := by
      refine attemptLoop_ok M N 1 ?_
      rcases hsucc with h | h | h
      · exact Or.inl h
      · exact Or.inr (Or.inl h)
      · right; right; push_cast; omega
    have hrun : runBatches M (fun _ => N) 0 [d] =
        (Except.ok d.length,
          (List.replicate N false ++ [true]).map fun s => (⟨0, s⟩ : WriteEv)) := by
      simp [runBatches, hal]
    constructor
    · simp [ingest_documents, hie, htb, hrun]
    · simp only [ingest_documents, hie, Bool.false_eq_true, if_false, htb, hrun]
      exact successIdxs_replicate_true 0 N
  · rintro ⟨hM, hN, hle⟩
    rcases hA : attemptLoop M N 1 with ⟨ares, aevs⟩
    have herr := attemptLoop_err M N 1 hM hN (by push_cast; omega)
    rw [hA] at herr
    have h1 : ares = Except.error () := herr.1
    have h2 : ∀ b ∈ aevs, b = false := herr.2
    subst h1
    have hrun : runBatches M (fun _ => N) 0 [d] =
        (Except.error (), aevs.map fun s => (⟨0, s⟩ : WriteEv)) := by
      simp [runBatches, hA]
    constructor
    · simp [ingest_documents, hie, htb, hrun]
    · simp only [ingest_documents, hie, Bool.false_eq_true, if_false, htb, hrun]
      exact successIdxs_all_false 0 aevs h2

theorem ingest_retry_boundary_witness :
    ([0] : List Nat) ≠ [] ∧ ([0] : List Nat).length ≤ 100 ∧
    ((((2 : Int) = -1 ∨ (1 : Nat) = 0 ∨ ((1 : Nat) : Int) < 2) →
      (ingest_documents ([0] : List Nat) false 100 2 fun _ => 1).outcome =
        Except.ok ([0] : List Nat).length ∧
      successIdxs (ingest_documents ([0] : List Nat) false 100 2 fun _ => 1).events = [0]) ∧
    (((2 : Int) ≠ -1 ∧ 1 ≤ (1 : Nat) ∧ (2 : Int) ≤ ((1 : Nat) : Int)) →
      (ingest_documents ([0] : List Nat) false 100 2 fun _ => 1).outcome = Except.error () ∧
      successIdxs (ingest_documents ([0] : List Nat) false 100 2 fun _ => 1).events = [])) :=
  ⟨by decide, by decide, ingest_retry_boundary [0] false 100 2 1 (by decide) (by decide)⟩

/-- C1 counterexample: one document, one batch, a store write that fails exactly
once and then would succeed, and retry ceiling `max_retries = 1` (which the
claim's condition `ceiling ≥ N` deems sufficient).  The code raises on the
first failing attempt (`attempt >= max_retries` holds at attempt 1) and reports
no success, contradicting the claim that ingestion succeeds. -/
theorem ingest_retry_ceiling_counterexample :
    (ingest_documents ([0] : List Nat) false 100 1 fun _ => 1).outcome = Except.error () ∧
    successIdxs (ingest_documents ([0] : List Nat) false 100 1 fun _ => 1).events = [] :=
  ⟨rfl, rfl⟩

/-- C7: within one ingestion call, the successful batch writes form precisely
the index range `0, 1, ..., m-1` — a prefix of the input batch sequence, in
input order; the whole write trace is ordered by batch index (a later batch is
never attempted before an earlier batch's retry sequence has concluded); no
event ever concerns a batch beyond the first terminally failing one; a raised
outcome means the prefix is proper, and a returned count means every batch was
written and the count is the total number of documents. -/
theorem ingest_batches_in_order {α : Type} (docs : List α) (vsGiven : Bool) (bs : Nat)
    (M : Int) (f : Nat → Nat) (hbs : 0 < bs) :
    ∃ m, m ≤ (toBatches bs docs).length ∧
      successIdxs (ingest_documents docs vsGiven bs M f).events = List.range m ∧
      List.Pairwise (· ≤ ·)
        ((ingest_documents docs vsGiven bs M f).events.map WriteEv.batch) ∧
      (∀ e ∈ (ingest_documents docs vsGiven bs M f).events, e.batch ≤ m) ∧
      ((ingest_documents docs vsGiven bs M f).outcome = Except.error () →
        m < (toBatches bs docs).length) ∧
      (∀ n, (ingest_documents docs vsGiven bs M f).outcome = Except.ok n →
        m = (toBatches bs docs).length ∧ n = (toBatches bs docs).flatten.length) := by
  cases docs with
  | nil =>
    have hi : ingest_documents ([] : List α) vsGiven bs M f = ⟨Except.ok 0, [], false⟩ :=
      rfl
    refine ⟨0, by simp, ?_, ?_, ?_, ?_, ?_⟩
    · rw [hi]; rfl
    · rw [hi]; exact List.Pairwise.nil
    · rw [hi]; intro e he; simp at he
    · rw [hi]; intro h; exact absurd h (by simp)
    · rw [hi]
      intro n h
      have hn : (0 : Nat) = n := by simpa using h
      refine ⟨rfl, ?_⟩
      rw [← hn]
      rfl
  | cons x t =>
    obtain ⟨m, hm, hsucc, hbound, hpair, herr, hok⟩ :=
      runBatches_spec M f (toBatches bs (x :: t)) 0
    have hi : ingest_documents (x :: t) vsGiven bs M f =
        ⟨(runBatches M f 0 (toBatches bs (x :: t))).1,
          (runBatches M f 0 (toBatches bs (x :: t))).2, !vsGiven⟩ := by
      simp [ingest_documents]
    refine ⟨m, hm, ?_, ?_, ?_, ?_, ?_⟩
    · rw [hi]
      show successIdxs (runBatches M f 0 (toBatches bs (x :: t))).2 = List.range m
      rw [hsucc]
      refine (List.map_congr_left ?_).trans (List.map_id _)
      intro a _
      show 0 + a = a
      omega
    · rw [hi]; exact hpair
    · rw [hi]
      intro e he
      have := hbound e he
      omega
    · rw [hi]; exact herr
    · rw [hi]; exact hok

theorem ingest_batches_in_order_witness :
    0 < 1 ∧
    ∃ m, m ≤ (toBatches 1 ([0, 1] : List Nat)).length ∧
      successIdxs (ingest_documents ([0, 1] : List Nat) false 1 (-1) fun _ => 0).events =
        List.range m ∧
      List.Pairwise (· ≤ ·)
        ((ingest_documents ([0, 1] : List Nat) false 1 (-1) fun _ => 0).events.map
          WriteEv.batch) ∧
      (∀ e ∈ (ingest_documents ([0, 1] : List Nat) false 1 (-1) fun _ => 0).events,
        e.batch ≤ m) ∧
      ((ingest_documents ([0, 1] : List Nat) false 1 (-1) fun _ => 0).outcome =
          Except.error () → m < (toBatches 1 ([0, 1] : List Nat)).length) ∧
      (∀ n, (ingest_documents ([0, 1] : List Nat) false 1 (-1) fun _ => 0).outcome =
          Except.ok n → m = (toBatches 1 ([0, 1] : List Nat)).length ∧
          n = (toBatches 1 ([0, 1] : List Nat)).flatten.length) :=
  ⟨by decide, ingest_batches_in_order [0, 1] false 1 (-1) (fun _ => 0) (by decide)⟩

theorem augmentedQuery_ne (q : String) (h : List String) : augmentedQuery q h ≠ q := by
  intro he
  have hl := congrArg String.length he
  rw [augmentedQuery, String.length_append, String.length_append] at hl
  have h9 : 0 < ("\n\n이전 대화: " : String).length := by decide
  omega

/-- C8: in the plain-mode QA chain, a non-empty `chat_history` in the input
mapping makes the retrieval query the history-augmented string — built exactly
as in conversational mode — which is never the question verbatim, while the
prompt handed to the model is still rendered from the bare question; with an
absent or empty history the retrieval query is the question verbatim. -/
theorem qa_history_retrieval_spec {V : Type} (search : String → List (RetItem V))
    (llm : String → String) (rsd : Bool) (inputs : ChainInputs) (question : String)
    (out : QAOutput V) (hq : pyOrStr inputs.query inputs.question = some question)
    (hout : qaInvoke search llm rsd inputs = some out) :
    (pyOrList inputs.chat_history [] ≠ [] →
      out.retrievalQuery = augmentedQuery question (pyOrList inputs.chat_history []) ∧
      out.retrievalQuery ≠ question ∧
      out.prompt =
        qaPromptTemplate (contextOf (chainRetrieve (search out.retrievalQuery))) question) ∧
    (pyOrList inputs.chat_history [] = [] → out.retrievalQuery = question) := by
  unfold qaInvoke at hout
  rw [hq] at hout
  have hrec := Option.some.inj hout
  subst hrec
  constructor
  · intro hne0
    have hrq : (retrievalQueryOf question (pyOrList inputs.chat_history [])) =
        augmentedQuery question (pyOrList inputs.chat_history []) := by
      rw [retrievalQueryOf, if_neg hne0]
    refine ⟨hrq, ?_, rfl⟩
    show retrievalQueryOf question (pyOrList inputs.chat_history []) ≠ question
    rw [hrq]
    exact augmentedQuery_ne question _
  · intro h0
    show retrievalQueryOf question (pyOrList inputs.chat_history []) = question
    rw [retrievalQueryOf, if_pos h0]

theorem qa_history_retrieval_witness :
    pyOrStr qaWitnessInputs.query qaWitnessInputs.question = some "q" ∧
    qaInvoke (fun _ => ([] : List (RetItem Nat))) (fun _ => "ans") true qaWitnessInputs =
      some qaWitnessOut ∧
    ((pyOrList qaWitnessInputs.chat_history [] ≠ [] →
      qaWitnessOut.retrievalQuery =
        augmentedQuery "q" (pyOrList qaWitnessInputs.chat_history []) ∧
      qaWitnessOut.retrievalQuery ≠ "q" ∧
      qaWitnessOut.prompt = qaPromptTemplate
        (contextOf (chainRetrieve ((fun _ => ([] : List (RetItem Nat)))
          qaWitnessOut.retrievalQuery))) "q") ∧
    (pyOrList qaWitnessInputs.chat_history [] = [] → qaWitnessOut.retrievalQuery = "q")) :=
  ⟨rfl, rfl, qa_history_retrieval_spec (fun _ => ([] : List (RetItem Nat))) (fun _ => "ans")
    true qaWitnessInputs "q" qaWitnessOut rfl rfl⟩

/-- C4: a conversational-chain call whose effective history has `n` turns
invokes the language model on a message sequence of exactly `n + 1` messages:
one user-role (`HumanMessage`) message per prior turn, in order, followed by a
final user-role message containing the rendered prompt (retrieved context plus
question); the model is called on exactly that sequence. -/
theorem conversational_messages_spec {V : Type} (search : String → List (RetItem V))
    (llm : List ChatMsg → String) (memory : Option (List String)) (inputs : ChainInputs)
    (question : String) (hs : List String) (out : ConvOutput V)
    (hq : pyOrStr inputs.question inputs.query = some question)
    (hh : pyOrList inputs.chat_history (pyOrList memory []) = hs)
    (hout : convInvoke search llm memory inputs = some out) :
    out.llmMessages.length = hs.length + 1 ∧
    out.llmMessages.take hs.length = hs.map ChatMsg.human ∧
    out.llmMessages.getLast? =
      some (ChatMsg.human (qaPromptTemplate (contextOf out.source_documents) question)) ∧
    out.answer = llm out.llmMessages := by
  unfold convInvoke at hout
  rw [hq, hh] at hout
  have hrec := Option.some.inj hout
  subst hrec
  refine ⟨?_, ?_, ?_, rfl⟩
  · show (hs.map ChatMsg.human ++ [ChatMsg.human _]).length = hs.length + 1
    rw [List.length_append, List.length_map]
    rfl
  · show (hs.map ChatMsg.human ++ [ChatMsg.human _]).take hs.length = hs.map ChatMsg.human
    exact List.take_left' (List.length_map hs ChatMsg.human)
  · exact List.getLast?_concat _

theorem conversational_messages_witness :
    pyOrStr convWitnessInputs.question convWitnessInputs.query = some "q" ∧
    pyOrList convWitnessInputs.chat_history (pyOrList none []) = ["t1", "t2"] ∧
    convInvoke (fun _ => ([] : List (RetItem Nat))) (fun _ => "ans") none
      convWitnessInputs = some convWitnessOut ∧
    (convWitnessOut.llmMessages.length = (["t1", "t2"] : List String).length + 1 ∧
    convWitnessOut.llmMessages.take (["t1", "t2"] : List String).length =
      (["t1", "t2"] : List String).map ChatMsg.human ∧
    convWitnessOut.llmMessages.getLast? = some (ChatMsg.human
      (qaPromptTemplate (contextOf convWitnessOut.source_documents) "q")) ∧
    convWitnessOut.answer = (fun _ => "ans") convWitnessOut.llmMessages) :=
  ⟨rfl, rfl, rfl, conversational_messages_spec (fun _ => ([] : List (RetItem Nat)))
    (fun _ => "ans") none convWitnessInputs "q" ["t1", "t2"] convWitnessOut rfl rfl rfl⟩

/-! ### Chunk-coverage lemmas -/

theorem findSep_spec (sep : List Char) :
    ∀ (l pre post : List Char), findSep sep l = some (pre, post) → pre ++ post = l := by
  intro l
  induction l with
  | nil => intro pre post h; simp [findSep] at h
  | cons c rest ih =>
    intro pre post h
    rw [findSep] at h
    by_cases hc : sep ≠ [] ∧ sep.isPrefixOf (c :: rest)
    · rw [if_pos hc] at h
      simp only [Option.some.injEq, Prod.mk.injEq] at h
      obtain ⟨h1, h2⟩ := h
      subst h1
      subst h2
      obtain ⟨t, ht⟩ := List.isPrefixOf_iff_prefix.mp hc.2
      rw [← ht, List.drop_left]
    · rw [if_neg hc] at h
      cases hf : findSep sep rest with
      | none => rw [hf] at h; simp at h
      | some pr =>
        rcases pr with ⟨pre2, post2⟩
        rw [hf] at h
        simp only [Option.some.injEq, Prod.mk.injEq] at h
        obtain ⟨h1, h2⟩ := h
        rw [← h1, ← h2, List.cons_append, ih pre2 post2 hf]

theorem flatten_splitKeepAux (sep : List Char) :
    ∀ (fuel : Nat) (l : List Char), (splitKeepAux sep fuel l).flatten = l := by
  intro fuel
  induction fuel with
  | zero => intro l; simp [splitKeepAux]
  | succ fuel ih =>
    intro l
    cases hf : findSep sep l with
    | none => rw [splitKeepAux, hf]; simp
    | some pr =>
      rcases pr with ⟨pre, post⟩
      rw [splitKeepAux, hf]
      rw [List.flatten_cons, ih post]
      exact findSep_spec sep l pre post hf

theorem flatten_splitKeep (sep l : List Char) : (splitKeep sep l).flatten = l :=
  flatten_splitKeepAux sep l.length l

theorem flatten_flatMap_of_flatten {f : List Char → List (List Char)} :
    ∀ l : List (List Char), (∀ x ∈ l, (f x).flatten = x) →
      (l.flatMap f).flatten = l.flatten := by
  intro l
  induction l with
  | nil => intro _; rfl
  | cons x t ih =>
    intro h
    rw [List.flatMap_cons, List.flatten_append, h x (List.mem_cons_self x t),
      List.flatten_cons, ih fun y hy => h y (List.mem_cons_of_mem x hy)]

theorem flatten_fragments (cs : Nat) :
    ∀ (seps : List (List Char)) (text : List Char),
      (fragments cs seps text).flatten = text := by
  intro seps
  induction seps with
  | nil =>
    intro text
    rw [fragments]
    by_cases h : text.length ≤ cs
    · rw [if_pos h]; simp
    · rw [if_neg h]; exact flatten_toBatches cs text
  | cons s rest ih =>
    intro text
    rw [fragments]
    by_cases h : text.length ≤ cs
    · rw [if_pos h]; simp
    · rw [if_neg h, flatten_flatMap_of_flatten (splitKeep s text) fun x _ => ih x]
      exact flatten_splitKeep s text

theorem flatten_mergeGo (cs : Nat) :
    ∀ (fs : List (List Char)) (acc : List Char),
      (mergeGo cs acc fs).flatten = acc ++ fs.flatten := by
  intro fs
  induction fs with
  | nil => intro acc; simp [mergeGo]
  | cons f t ih =>
    intro acc
    rw [mergeGo]
    by_cases h : acc.length + f.length ≤ cs
    · rw [if_pos h, ih (acc ++ f)]; simp
    · rw [if_neg h, List.flatten_cons, ih f]; simp

theorem flatten_mergeGreedy (cs : Nat) (fs : List (List Char)) :
    (mergeGreedy cs fs).flatten = fs.flatten := by
  cases fs with
  | nil => rfl
  | cons f t =>
    show (mergeGo cs f t).flatten = (f :: t).flatten
    rw [flatten_mergeGo cs t f, List.flatten_cons]

theorem mem_chunk_addOverlapGo (ov : Nat) (x : Char) :
    ∀ (cs : List (List Char)) (prev : List Char), x ∈ cs.flatten →
      ∃ ch ∈ addOverlapGo ov prev cs, x ∈ ch := by
  intro cs
  induction cs with
  | nil => intro prev h; simp at h
  | cons c t ih =>
    intro prev h
    rw [List.flatten_cons, List.mem_append] at h
    rcases h with h | h
    · refine ⟨endOverlap ov prev ++ c, ?_, List.mem_append.2 (Or.inr h)⟩
      rw [addOverlapGo]
      exact List.mem_cons_self _ _
    · obtain ⟨ch, hch, hx⟩ := ih (endOverlap ov prev ++ c) h
      refine ⟨ch, ?_, hx⟩
      rw [addOverlapGo]
      exact List.mem_cons_of_mem _ hch

theorem mem_chunk_addOverlap (ov : Nat) (x : Char) (cores : List (List Char))
    (h : x ∈ cores.flatten) : ∃ ch ∈ addOverlap ov cores, x ∈ ch := by
  cases cores with
  | nil => simp at h
  | cons c t =>
    rw [List.flatten_cons, List.mem_append] at h
    rcases h with h | h
    · refine ⟨c, ?_, h⟩
      rw [addOverlap]
      exact List.mem_cons_self _ _
    · obtain ⟨ch, hch, hx⟩ := mem_chunk_addOverlapGo ov x t c h
      refine ⟨ch, ?_, hx⟩
      rw [addOverlap]
      exact List.mem_cons_of_mem _ hch

theorem map_page_content_process_document (cs ov : Nat) (content : List Char)
    (md : List (String × MetaVal)) (hne : pyStrip content ≠ []) :
    (process_document cs ov content md).map ChunkDoc.page_content =
      split_text cs ov (pyStrip content) := by
  unfold process_document
  rw [if_neg hne, List.map_map]
  refine (List.map_congr_left ?_).trans (List.enum_map_snd _)
  intro p _
  rfl

/-- C2 counterexample: the two-character input `" a"` is non-empty, but
`process_document` strips the content before chunking, so the leading space
appears in no produced chunk and the concatenation of chunks does not
reconstruct the original text. -/
theorem chunk_coverage_counterexample :
    (' ' ∈ ([' ', 'a'] : List Char)) ∧
    ∀ d ∈ process_document 100 20 [' ', 'a'] [], ' ' ∉ d.page_content := by decide

/-- C2 as amended: for every input, every character of the *stripped* content
appears in at least one chunk produced by `process_document`, and the chunk
texts are exactly an overlap-decoration of core pieces whose concatenation
(that is, the chunk sequence with overlap regions ignored) reconstructs the
stripped content with no character dropped.  Characters stripped from the ends
of the raw content by `process_document` are the only ones lost. -/
theorem chunk_coverage (cs ov : Nat) (content : List Char)
    (md : List (String × MetaVal)) :
    (∀ x ∈ pyStrip content, ∃ d ∈ process_document cs ov content md,
      x ∈ d.page_content) ∧
    ∃ cores, (process_document cs ov content md).map ChunkDoc.page_content =
        addOverlap ov cores ∧ cores.flatten = pyStrip content := by
  by_cases hne : pyStrip content = []
  · constructor
    · intro x hx
      rw [hne] at hx
      simp at hx
    · refine ⟨[], ?_, by rw [hne]; rfl⟩
      unfold process_document
      rw [if_pos hne]
      rfl
  · have hmap := map_page_content_process_document cs ov content md hne
    have hcores :
        (mergeGreedy cs (fragments cs koreanSeparators (pyStrip content))).flatten =
          pyStrip content := by
      rw [flatten_mergeGreedy, flatten_fragments]
    constructor
    · intro x hx
      have hx2 : x ∈
          (mergeGreedy cs (fragments cs koreanSeparators (pyStrip content))).flatten := by
        rw [hcores]
        exact hx
      obtain ⟨ch, hch, hxch⟩ := mem_chunk_addOverlap ov x _ hx2
      have hch2 : ch ∈ (process_document cs ov content md).map ChunkDoc.page_content := by
        rw [hmap]
        exact hch
      obtain ⟨d, hd, hde⟩ := List.mem_map.1 hch2
      refine ⟨d, hd, ?_⟩
      rw [hde]
      exact hxch
    · refine ⟨mergeGreedy cs (fragments cs koreanSeparators (pyStrip content)), ?_, hcores⟩
      rw [hmap]
      rfl

end PigRag
